import Mathlib

/-!
Verification of the spatial-binning and split-selection engine of
`kernels/xeon/builders_new/heuristic_spatial.h`.

Shallow embedding conventions:
* float coordinates are modelled by exact rationals (`ℚ`), machine counters
  (`ssei` lanes) by `ℕ`, and bin indices by `ℤ` so that index underflow of the
  C `size_t` arithmetic (`r--` at bin 0) is expressible;
* the three SIMD lanes of `ssef`/`ssei` values are modelled as functions
  `Fin 3 → _` (the fourth, unused lane is dropped);
* the constant `empty` bounding box (`lower = +inf, upper = -inf`), which is
  the identity of `extend`, is modelled as `none : Option BBox3`; finite boxes,
  including inverted ("empty" in the sense of `BBox3fa::empty()`) fragment
  boxes produced by clipping, are `some` of a lower/upper pair;
* the C arrays `bounds[BINS][4]`, `numBegin[BINS]`, `numEnd[BINS]` are
  modelled as total functions on `ℤ` (a ghost infinite array), so that the
  claim that every access lands inside `[0, BINS)` is a provable statement
  rather than an assumption of the model;
* the external clip routine `splitTriangle(rest,dim,pos,v0,v1,v2,left,right)`
  is out of scope of this header; each primitive carries an abstract function
  from the current remainder box, the axis and the plane position to the pair
  of fragment boxes (the triangle vertices are folded into that function), and
  all theorems about binning hold for every such function;
* the `for` loops of the source are expressed as folds over the literal
  iteration sequences, or as structural recursion on the iteration count.
-/

namespace EmbreeSpatial

/-- Axis index: the three dimensions x, y, z. -/
abbrev Dim := Fin 3

/-- An axis-aligned box given by its lower and upper corner, one rational per
axis.  This models `BBox3fa` with finite float coordinates; the box may be
inverted (lower above upper), which `BBox3fa::empty()` reports as empty. -/
@[ext]
structure BBox3 where
  lower : Dim → ℚ
  upper : Dim → ℚ

/-- Model of `BBox3fa::empty()`: true iff the box is inverted in some
dimension (`lower[i] > upper[i]`). -/
def BBox3.isEmpty (b : BBox3) : Bool :=
  decide (b.upper 0 < b.lower 0 ∨ b.upper 1 < b.lower 1 ∨ b.upper 2 < b.lower 2)

/-- Model of `BBox3fa::extend` on two finite boxes: componentwise min of the
lower and max of the upper corners. -/
def BBox3.union (a b : BBox3) : BBox3 :=
  ⟨fun d => min (a.lower d) (b.lower d), fun d => max (a.upper d) (b.upper d)⟩

/-- A possibly-`empty` accumulator box: `none` models the constant `empty`
box (`lower = +inf, upper = -inf`), the identity of `extend`. -/
abbrev EBBox := Option BBox3

/-- `extend` of an accumulator box by a finite box. -/
def extendE : EBBox → BBox3 → EBBox
  | none, b => some b
  | some a, b => some (a.union b)

/-- `extend` of an accumulator box by another accumulator box (used by
`merge` and by the sweeps of `best`). -/
def extendEE : EBBox → EBBox → EBBox
  | a, none => a
  | a, some b => extendE a b

/-- Model of `halfArea(BBox3fa)`: with `s = upper - lower`,
`s.x*s.y + s.x*s.z + s.y*s.z`. -/
def BBox3.halfArea (b : BBox3) : ℚ :=
  (b.upper 0 - b.lower 0) * (b.upper 1 - b.lower 1)
  + (b.upper 0 - b.lower 0) * (b.upper 2 - b.lower 2)
  + (b.upper 1 - b.lower 1) * (b.upper 2 - b.lower 2)

/-- Half area of an accumulator box; the value on the `empty` constant is a
modelling choice (the IEEE value is non-finite) and no theorem depends on it. -/
def halfAreaE : EBBox → ℚ
  | none => 0
  | some b => b.halfArea

/-- Model of `SpatialBinMapping<BINS>`: the per-axis linear transform
`ofs`/`scale` mapping world coordinates to bin indices.  The bin count is
passed to the operations (it is a template parameter in the source). -/
structure SpatialBinMapping where
  ofs : Dim → ℚ
  scale : Dim → ℚ

/-- Model of `SpatialBinMapping::bin`:
`clamp(floori((p-ofs)*scale), 0, BINS-1)` per axis, where embree clamp is
`max lower (min x upper)`. -/
def SpatialBinMapping.bin (m : SpatialBinMapping) (BINS : ℕ) (p : Dim → ℚ)
    (d : Dim) : ℤ :=
  max 0 (min ⌊(p d - m.ofs d) * m.scale d⌋ ((BINS : ℤ) - 1))

/-- Model of `SpatialBinMapping::pos`: `float(bin)/scale[dim] + ofs[dim]`
(in ℚ, division by a zero scale yields 0; the source never calls `pos` on an
invalid axis because such an axis has `bin0 = bin1 = 0`). -/
def SpatialBinMapping.pos (m : SpatialBinMapping) (bin : ℕ) (d : Dim) : ℚ :=
  (bin : ℚ) / m.scale d + m.ofs d

/-- Model of `SpatialBinMapping::invalid`: `scale[dim] == 0.0f`. -/
def SpatialBinMapping.invalid (m : SpatialBinMapping) (d : Dim) : Bool :=
  decide (m.scale d = 0)

/-- Model of `SpatialBinSplit<BINS>`: SAH cost (`none` models the `inf`
sentinel), split dimension (`-1` sentinel), split position, and the mapping. -/
structure SpatialBinSplit where
  sah : Option ℚ
  dim : ℤ
  pos : ℤ
  mapping : SpatialBinMapping

/-- Model of `SpatialBinSplit::valid`: `dim != -1`. -/
def SpatialBinSplit.valid (s : SpatialBinSplit) : Bool :=
  decide (s.dim ≠ -1)

/-- Model of `SpatialBinInfo<BINS>`: per-bin per-axis accumulated bounds and
begin/end counters.  The C arrays of size `BINS` are modelled as total
functions on `ℤ` (ghost infinite arrays) so that out-of-range index
arithmetic is expressible; the safety theorems show all accesses performed
by the operations land in `[0, BINS)`. -/
@[ext]
structure SpatialBinInfo where
  bounds : ℤ → Dim → EBBox
  numBegin : ℤ → Dim → ℕ
  numEnd : ℤ → Dim → ℕ

/-- Model of `SpatialBinInfo::clear`: every bin gets the empty box and zero
counters. -/
def SpatialBinInfo.clear : SpatialBinInfo :=
  ⟨fun _ _ => none, fun _ _ => 0, fun _ _ => 0⟩

/-- Model of `SpatialBinInfo::merge`: per bin, add the counters of `other`
and extend the bounds by the bounds of `other`. -/
def SpatialBinInfo.merge (a other : SpatialBinInfo) : SpatialBinInfo :=
  ⟨fun i d => extendEE (a.bounds i d) (other.bounds i d),
   fun i d => a.numBegin i d + other.numBegin i d,
   fun i d => a.numEnd i d + other.numEnd i d⟩

/-- A primitive to be binned: its bounding box, and an abstract clip function
modelling the external `splitTriangle` routine with the triangle vertices
`v0,v1,v2` folded in.  `split rest d p` returns the bounds of the left and
right fragments of the remainder `rest` at plane position `p` on axis `d`. -/
structure Prim where
  bounds : BBox3
  split : BBox3 → Dim → ℚ → BBox3 × BBox3

/-- Increment of one counter cell `f[i][d0]++` of a ghost counter array. -/
def bumpAt (f : ℤ → Dim → ℕ) (i : ℤ) (d0 : Dim) : ℤ → Dim → ℕ :=
  fun j d => if j = i ∧ d = d0 then f j d + 1 else f j d

/-- `f[i][d0].extend(b)` on a ghost bounds array. -/
def extendAt (f : ℤ → Dim → EBBox) (i : ℤ) (d0 : Dim) (b : BBox3) :
    ℤ → Dim → EBBox :=
  fun j d => if j = i ∧ d = d0 then extendE (f j d) b else f j d

/-- `bin0[dim]` of the binning loop: the bin of the lower corner of the
primitive box.  The clamp makes the value non-negative, so `toNat` is exact. -/
def bin0N (BINS : ℕ) (m : SpatialBinMapping) (p : Prim) (d : Dim) : ℕ :=
  (m.bin BINS p.bounds.lower d).toNat

/-- `bin1[dim]` of the binning loop: the bin of the upper corner. -/
def bin1N (BINS : ℕ) (m : SpatialBinMapping) (p : Prim) (d : Dim) : ℕ :=
  (m.bin BINS p.bounds.upper d).toNat

/-- State of the inner clipping loop of `SpatialBinInfo::bin` for one
primitive and one axis: the running remainder `rest`, the begin-count index
`l`, the bounds array being updated, and (as a ghost trace used only by the
specification) the list of left fragments produced so far. -/
structure ClipState where
  rest : BBox3
  l : ℤ
  bnds : ℤ → Dim → EBBox
  lefts : List BBox3

/-- One iteration of the inner loop of `SpatialBinInfo::bin`: clip the
remainder at the right boundary of bin `binIdx`, advance `l` past an empty
left fragment, extend the bin bounds by the left fragment, keep the right
fragment as the new remainder. -/
def clipStep (m : SpatialBinMapping) (p : Prim) (d : Dim) (st : ClipState)
    (binIdx : ℕ) : ClipState :=
  let planePos := m.pos (binIdx + 1) d
  let lr := p.split st.rest d planePos
  { rest := lr.2
    l := if lr.1.isEmpty then st.l + 1 else st.l
    bnds := extendAt st.bnds (binIdx : ℤ) d lr.1
    lefts := st.lefts ++ [lr.1] }

/-- The inner loop of `SpatialBinInfo::bin` for one primitive and one axis:
iterate `clipStep` for `bin` from `bin0[dim]` up to (exclusive) `bin1[dim]`,
starting from the whole primitive and `l = bin0[dim]`. -/
def innerFold (BINS : ℕ) (m : SpatialBinMapping) (p : Prim) (d : Dim)
    (bnds : ℤ → Dim → EBBox) : ClipState :=
  (List.range' (bin0N BINS m p d) (bin1N BINS m p d - bin0N BINS m p d)).foldl
    (clipStep m p d) ⟨p.bounds, (bin0N BINS m p d : ℤ), bnds, []⟩

/-- The end-count index `r` of the binning loop: `bin1[dim]`, decremented by
one when the final remainder is empty (over ℤ, so the underflow of the C
`size_t` at `bin1 = 0` appears as the value `-1`). -/
def endIdx (BINS : ℕ) (m : SpatialBinMapping) (p : Prim) (d : Dim)
    (st : ClipState) : ℤ :=
  if st.rest.isEmpty then (bin1N BINS m p d : ℤ) - 1 else (bin1N BINS m p d : ℤ)

/-- The body of `SpatialBinInfo::bin` for one primitive and one axis: run the
inner clipping loop, then `numBegin[l][dim]++`, `numEnd[r][dim]++`, and
extend `bounds[bin][dim]` by the final remainder, where `bin` is the value of
the loop variable after the loop (`max bin0 bin1`). -/
def binPrimDim (BINS : ℕ) (m : SpatialBinMapping) (p : Prim) (d : Dim)
    (acc : SpatialBinInfo) : SpatialBinInfo :=
  let st := innerFold BINS m p d acc.bounds
  let binF : ℤ := max (bin0N BINS m p d : ℤ) (bin1N BINS m p d : ℤ)
  { bounds := extendAt st.bnds binF d st.rest
    numBegin := bumpAt acc.numBegin st.l d
    numEnd := bumpAt acc.numEnd (endIdx BINS m p d st) d }

/-- The body of `SpatialBinInfo::bin` for one primitive: the axis loop
`for (dim = 0; dim < 3; dim++)`. -/
def binPrim (BINS : ℕ) (m : SpatialBinMapping) (acc : SpatialBinInfo)
    (p : Prim) : SpatialBinInfo :=
  (List.finRange 3).foldl (fun a d => binPrimDim BINS m p d a) acc

/-- Model of `SpatialBinInfo::bin(scene, prims, N, pinfo, mapping)`: bin every
primitive of the array in order (the `scene`/`pinfo` arguments only serve the
vertex lookup folded into `Prim.split`). -/
def SpatialBinInfo.bin (acc : SpatialBinInfo) (BINS : ℕ)
    (m : SpatialBinMapping) (prims : List Prim) : SpatialBinInfo :=
  prims.foldl (binPrim BINS m) acc

/-- Model of the range overload `SpatialBinInfo::bin(scene, prims, begin,
end, mapping)`: bins `prims + begin` for `end - begin` primitives. -/
def SpatialBinInfo.binRange (acc : SpatialBinInfo) (BINS : ℕ)
    (m : SpatialBinMapping) (prims : List Prim) (b e : ℕ) : SpatialBinInfo :=
  acc.bin BINS m ((prims.drop b).take (e - b))

/-- State of the right-to-left sweep of `SpatialBinInfo::best`: the running
end-count and box union (`bx`,`by`,`bz` as one lane-indexed function), and
the recorded `rCounts`/`rAreas` arrays. -/
structure RState where
  count : Dim → ℕ
  boxes : Dim → EBBox
  rCounts : ℕ → Dim → ℕ
  rAreas : ℕ → Dim → ℚ

/-- One iteration (index `i`) of the right-to-left sweep:
`count += numEnd[i]; rCounts[i] = count; b.extend(bounds[i]);
rAreas[i] = halfArea(b)` in every lane. -/
def rStep (info : SpatialBinInfo) (st : RState) (i : ℕ) : RState :=
  let count := fun d => st.count d + info.numEnd (i : ℤ) d
  let boxes := fun d => extendEE (st.boxes d) (info.bounds (i : ℤ) d)
  { count := count
    boxes := boxes
    rCounts := fun j d => if j = i then count d else st.rCounts j d
    rAreas := fun j d => if j = i then halfAreaE (boxes d) else st.rAreas j d }

/-- The right-to-left sweep after `k` iterations: iteration `k` processes bin
index `BINS - 1 - k`, so the loop `for (i = BINS-1; i > 0; i--)` is
`rSweepAux BINS info (BINS - 1)`.  The unread initial `rCounts`/`rAreas`
cells (uninitialized stack arrays in the source) are set to 0. -/
def rSweepAux (BINS : ℕ) (info : SpatialBinInfo) : ℕ → RState
  | 0 => ⟨fun _ => 0, fun _ => none, fun _ _ => 0, fun _ _ => 0⟩
  | k + 1 => rStep info (rSweepAux BINS info k) (BINS - 1 - k)

/-- The complete right-to-left sweep of `SpatialBinInfo::best`. -/
def rSweep (BINS : ℕ) (info : SpatialBinInfo) : RState :=
  rSweepAux BINS info (BINS - 1)

/-- `x < y` where `y` may be the `+inf` sentinel (`none`); the left operand,
an SAH cost just computed, is always finite in the model. -/
def sahLt (x : ℚ) : Option ℚ → Bool
  | none => true
  | some y => decide (x < y)

/-- State of the left-to-right sweep of `SpatialBinInfo::best`: running
begin-count and box union, and the per-lane best SAH (`none` is the `pos_inf`
initial value) and best position. -/
structure LState where
  count : Dim → ℕ
  boxes : Dim → EBBox
  vbestSAH : Dim → Option ℚ
  vbestPos : Dim → ℤ

/-- The values computed by iteration `i` of the left-to-right sweep: the new
running count and box union, and the SAH cost
`lArea*((lCount+blocks_add) >> shift) + rArea*((rCount+blocks_add) >> shift)`
with `blocks_add = (1 << blocks_shift) - 1`. -/
def lVals (info : SpatialBinInfo) (shift : ℕ) (rs : RState) (st : LState)
    (i : ℕ) : (Dim → ℕ) × (Dim → EBBox) × (Dim → ℚ) :=
  let count := fun d => st.count d + info.numBegin ((i : ℤ) - 1) d
  let boxes := fun d => extendEE (st.boxes d) (info.bounds ((i : ℤ) - 1) d)
  let sah := fun d =>
    halfAreaE (boxes d) * (((count d + ((1 <<< shift) - 1)) >>> shift : ℕ) : ℚ)
    + rs.rAreas i d * (((rs.rCounts i d + ((1 <<< shift) - 1)) >>> shift : ℕ) : ℚ)
  (count, boxes, sah)

/-- One iteration (index `i`) of the left-to-right sweep: update the running
state and perform the `select(sah < vbestSAH, ...)` updates of the per-lane
best SAH and best position. -/
def lStep (info : SpatialBinInfo) (shift : ℕ) (rs : RState) (st : LState)
    (i : ℕ) : LState :=
  let v := lVals info shift rs st i
  { count := v.1
    boxes := v.2.1
    vbestSAH := fun d =>
      if sahLt (v.2.2 d) (st.vbestSAH d) then some (v.2.2 d) else st.vbestSAH d
    vbestPos := fun d =>
      if sahLt (v.2.2 d) (st.vbestSAH d) then (i : ℤ) else st.vbestPos d }

/-- The left-to-right sweep after `k` iterations: iteration `k` processes
boundary index `k`, so the loop `for (i = 1; i < BINS; i++)` is
`lSweepAux info shift rs (BINS - 1)`. -/
def lSweepAux (info : SpatialBinInfo) (shift : ℕ) (rs : RState) : ℕ → LState
  | 0 => ⟨fun _ => 0, fun _ => none, fun _ => none, fun _ => 0⟩
  | k + 1 => lStep info shift rs (lSweepAux info shift rs k) (k + 1)

/-- The complete left-to-right sweep of `SpatialBinInfo::best`. -/
def lSweep (BINS : ℕ) (info : SpatialBinInfo) (shift : ℕ) (rs : RState) :
    LState :=
  lSweepAux info shift rs (BINS - 1)

/-- The SAH cost evaluated by `SpatialBinInfo::best` at boundary position `i`
on axis `d`: the cost expression of iteration `i` of the left-to-right sweep,
taken at the sweep state reached after iterations `1 .. i-1`. -/
def sahAt (BINS : ℕ) (info : SpatialBinInfo) (shift : ℕ) (i : ℕ) (d : Dim) :
    ℚ :=
  (lVals info shift (rSweep BINS info)
    (lSweepAux info shift (rSweep BINS info) (i - 1)) i).2.2 d

/-- State of the final axis-selection loop of `SpatialBinInfo::best`. -/
structure BestState where
  bestSAH : Option ℚ
  bestDim : ℤ
  bestPos : ℤ

/-- `x < y` on costs where either side may be the `inf` sentinel (`none`). -/
def ltOpt : Option ℚ → Option ℚ → Bool
  | none, _ => false
  | some _, none => true
  | some x, some y => decide (x < y)

/-- One iteration of the axis-selection loop: skip an invalid axis, otherwise
take the axis if `vbestSAH[dim] < bestSAH && vbestPos[dim] != 0`. -/
def dimStep (m : SpatialBinMapping) (ls : LState) (st : BestState) (d : Dim) :
    BestState :=
  if m.invalid d then st
  else if ltOpt (ls.vbestSAH d) st.bestSAH && !(ls.vbestPos d == 0) then
    ⟨ls.vbestSAH d, ((d : ℕ) : ℤ), ls.vbestPos d⟩
  else st

/-- The axis-selection loop `for (dim = 0; dim < 3; dim++)` of
`SpatialBinInfo::best`, starting from `bestSAH = inf, bestDim = -1,
bestPos = 0`. -/
def selFoldState (m : SpatialBinMapping) (ls : LState) : BestState :=
  (List.finRange 3).foldl (dimStep m ls) ⟨none, -1, 0⟩

/-- Model of `SpatialBinInfo::best` (the unused `pinfo` parameter of the
source is dropped): right sweep, left sweep, axis selection, and the final
sentinel test `if (bestDim == -1) return Split(inf,-1,0,mapping)`. -/
def SpatialBinInfo.best (info : SpatialBinInfo) (BINS : ℕ)
    (m : SpatialBinMapping) (shift : ℕ) : SpatialBinSplit :=
  let rs := rSweep BINS info
  let ls := lSweep BINS info shift rs
  let b := selFoldState m ls
  if b.bestDim = -1 then ⟨none, -1, 0, m⟩
  else ⟨b.bestSAH, b.bestDim, b.bestPos, m⟩

/-- Union of the boxes `f a, f (a+1), ..., f (a+n-1)` starting from the empty
box: the closed form against which the sweeps are verified. -/
def unionN (f : ℕ → EBBox) : ℕ → ℕ → EBBox
  | _, 0 => none
  | a, n + 1 => extendEE (f a) (unionN f (a + 1) n)

/-! ### Algebra of box extension -/

theorem BBox3.union_assoc (a b c : BBox3) :
    (a.union b).union c = a.union (b.union c) := by
  ext d <;> simp [BBox3.union, min_assoc, max_assoc]

theorem BBox3.union_comm (a b : BBox3) : a.union b = b.union a := by
  ext d <;> simp [BBox3.union, min_comm, max_comm]

@[simp] theorem extendEE_none_left (b : EBBox) : extendEE none b = b := by
  cases b <;> rfl

@[simp] theorem extendEE_none_right (a : EBBox) : extendEE a none = a := rfl

theorem extendEE_some (a : EBBox) (b : BBox3) :
    extendEE a (some b) = extendE a b := rfl

theorem extendEE_assoc (a b c : EBBox) :
    extendEE (extendEE a b) c = extendEE a (extendEE b c) := by
  cases c with
  | none => rfl
  | some c =>
    cases b with
    | none => cases a <;> rfl
    | some b =>
      cases a with
      | none => simp [extendEE, extendE]
      | some a => simp [extendEE, extendE, BBox3.union_assoc]

theorem extendEE_comm (a b : EBBox) : extendEE a b = extendEE b a := by
  cases a <;> cases b <;> simp [extendEE, extendE, BBox3.union_comm]

theorem extendE_extendEE (a b : EBBox) (f : BBox3) :
    extendE (extendEE a b) f = extendEE a (extendE b f) := by
  cases b with
  | none => cases a <;> rfl
  | some b => cases a <;> simp [extendEE, extendE, BBox3.union_assoc]

@[simp] theorem unionN_zero (f : ℕ → EBBox) (a : ℕ) : unionN f a 0 = none := rfl

theorem unionN_succ (f : ℕ → EBBox) (a n : ℕ) :
    unionN f a (n + 1) = extendEE (f a) (unionN f (a + 1) n) := rfl

theorem unionN_one (f : ℕ → EBBox) (a : ℕ) : unionN f a 1 = f a := by
  simp [unionN]

theorem unionN_succ_top (f : ℕ → EBBox) (a n : ℕ) :
    unionN f a (n + 1) = extendEE (unionN f a n) (f (a + n)) := by
  induction n generalizing a with
  | zero => simp [unionN]
  | succ n ih =>
    rw [unionN_succ, ih (a + 1), ← extendEE_assoc, ← unionN_succ]
    ring_nf

/-! ### Identities of `merge` -/

theorem merge_clear_right (A : SpatialBinInfo) :
    A.merge SpatialBinInfo.clear = A := by
  ext i d <;> simp [SpatialBinInfo.merge, SpatialBinInfo.clear]

theorem merge_clear_left (A : SpatialBinInfo) :
    SpatialBinInfo.clear.merge A = A := by
  ext i d <;> simp [SpatialBinInfo.merge, SpatialBinInfo.clear]

/-! ### Closed form of the right-to-left sweep -/

theorem rSweepAux_count (BINS : ℕ) (info : SpatialBinInfo) (k : ℕ)
    (hk : k ≤ BINS - 1) (d : Dim) :
    (rSweepAux BINS info k).count d
      = ∑ j ∈ Finset.Ico (BINS - k) BINS, info.numEnd (j : ℤ) d := by
  induction k with
  | zero => simp [rSweepAux]
  | succ k ih =>
    have hk' : k ≤ BINS - 1 := by omega
    have h1 : BINS - 1 - k = BINS - (k + 1) := by omega
    have h2 : BINS - (k + 1) < BINS := by omega
    have h3 : BINS - (k + 1) + 1 = BINS - k := by omega
    rw [rSweepAux]
    show (rSweepAux BINS info k).count d + info.numEnd ((BINS - 1 - k : ℕ) : ℤ) d = _
    rw [ih hk', Finset.sum_eq_sum_Ico_succ_bot h2, h3, h1, add_comm]

theorem rSweepAux_boxes (BINS : ℕ) (info : SpatialBinInfo) (k : ℕ)
    (hk : k ≤ BINS - 1) (d : Dim) :
    (rSweepAux BINS info k).boxes d
      = unionN (fun j => info.bounds (j : ℤ) d) (BINS - k) k := by
  induction k with
  | zero => simp [rSweepAux]
  | succ k ih =>
    have hk' : k ≤ BINS - 1 := by omega
    have h1 : BINS - 1 - k = BINS - (k + 1) := by omega
    have h3 : BINS - (k + 1) + 1 = BINS - k := by omega
    rw [rSweepAux]
    show extendEE ((rSweepAux BINS info k).boxes d)
        (info.bounds ((BINS - 1 - k : ℕ) : ℤ) d) = _
    rw [ih hk', unionN_succ, h3, h1, extendEE_comm]

theorem rSweepAux_rCounts (BINS : ℕ) (info : SpatialBinInfo) (k : ℕ)
    (hk : k ≤ BINS - 1) (i : ℕ) (hi1 : BINS - k ≤ i) (hi2 : i < BINS)
    (d : Dim) :
    (rSweepAux BINS info k).rCounts i d
      = ∑ j ∈ Finset.Ico i BINS, info.numEnd (j : ℤ) d := by
  induction k with
  | zero => omega
  | succ k ih =>
    have hk' : k ≤ BINS - 1 := by omega
    have h1 : BINS - 1 - k = BINS - (k + 1) := by omega
    rw [rSweepAux]
    show (if i = BINS - 1 - k then _ else (rSweepAux BINS info k).rCounts i d) = _
    by_cases hcase : i = BINS - 1 - k
    · subst hcase
      simp only [if_pos rfl]
      have h2 : BINS - 1 - k < BINS := by omega
      have h3 : BINS - 1 - k + 1 = BINS - k := by omega
      rw [rSweepAux_count BINS info k hk' d, Finset.sum_eq_sum_Ico_succ_bot h2, h3,
        add_comm]
      simp
    · rw [if_neg hcase]
      exact ih hk' (by omega)

theorem rSweepAux_rAreas (BINS : ℕ) (info : SpatialBinInfo) (k : ℕ)
    (hk : k ≤ BINS - 1) (i : ℕ) (hi1 : BINS - k ≤ i) (hi2 : i < BINS)
    (d : Dim) :
    (rSweepAux BINS info k).rAreas i d
      = halfAreaE (unionN (fun j => info.bounds (j : ℤ) d) i (BINS - i)) := by
  induction k with
  | zero => omega
  | succ k ih =>
    have hk' : k ≤ BINS - 1 := by omega
    rw [rSweepAux]
    show (if i = BINS - 1 - k then
        halfAreaE (extendEE ((rSweepAux BINS info k).boxes d)
          (info.bounds ((BINS - 1 - k : ℕ) : ℤ) d))
      else (rSweepAux BINS info k).rAreas i d) = _
    by_cases hcase : i = BINS - 1 - k
    · subst hcase
      simp only [if_pos rfl]
      have h1 : BINS - 1 - k + 1 = BINS - k := by omega
      have h4 : BINS - (BINS - 1 - k) = k + 1 := by omega
      rw [rSweepAux_boxes BINS info k hk' d, extendEE_comm, h4, unionN_succ, h1]
      simp
    · rw [if_neg hcase]
      exact ih hk' (by omega)

/-! ### Closed form and invariants of the left-to-right sweep -/

theorem lSweepAux_count (info : SpatialBinInfo) (shift : ℕ) (rs : RState)
    (k : ℕ) (d : Dim) :
    (lSweepAux info shift rs k).count d
      = ∑ j ∈ Finset.range k, info.numBegin (j : ℤ) d := by
  induction k with
  | zero => simp [lSweepAux]
  | succ k ih =>
    have hc : ((k + 1 : ℕ) : ℤ) - 1 = (k : ℤ) := by push_cast; ring
    rw [lSweepAux]
    show (lSweepAux info shift rs k).count d
        + info.numBegin (((k + 1 : ℕ) : ℤ) - 1) d = _
    rw [hc, ih, Finset.sum_range_succ]

theorem lSweepAux_boxes (info : SpatialBinInfo) (shift : ℕ) (rs : RState)
    (k : ℕ) (d : Dim) :
    (lSweepAux info shift rs k).boxes d
      = unionN (fun j => info.bounds (j : ℤ) d) 0 k := by
  induction k with
  | zero => simp [lSweepAux]
  | succ k ih =>
    have hc : ((k + 1 : ℕ) : ℤ) - 1 = (k : ℤ) := by push_cast; ring
    rw [lSweepAux]
    show extendEE ((lSweepAux info shift rs k).boxes d)
        (info.bounds (((k + 1 : ℕ) : ℤ) - 1) d) = _
    rw [hc, ih, unionN_succ_top]
    simp

theorem lStep_vbestPos (info : SpatialBinInfo) (shift : ℕ) (rs : RState)
    (st : LState) (i : ℕ) (d : Dim) :
    (lStep info shift rs st i).vbestPos d
      = if sahLt ((lVals info shift rs st i).2.2 d) (st.vbestSAH d) then (i : ℤ)
        else st.vbestPos d := rfl

theorem lStep_vbestSAH (info : SpatialBinInfo) (shift : ℕ) (rs : RState)
    (st : LState) (i : ℕ) (d : Dim) :
    (lStep info shift rs st i).vbestSAH d
      = if sahLt ((lVals info shift rs st i).2.2 d) (st.vbestSAH d) then
          some ((lVals info shift rs st i).2.2 d)
        else st.vbestSAH d := rfl

theorem lSweepAux_inv (info : SpatialBinInfo) (shift : ℕ) (rs : RState)
    (k : ℕ) (d : Dim) :
    ((lSweepAux info shift rs k).vbestPos d = 0
      ∧ (lSweepAux info shift rs k).vbestSAH d = none)
    ∨ (1 ≤ (lSweepAux info shift rs k).vbestPos d
      ∧ (lSweepAux info shift rs k).vbestPos d ≤ (k : ℤ)
      ∧ ∃ q, (lSweepAux info shift rs k).vbestSAH d = some q) := by
  induction k with
  | zero => exact Or.inl ⟨rfl, rfl⟩
  | succ k ih =>
    rw [lSweepAux, lStep_vbestPos, lStep_vbestSAH]
    by_cases hcase :
        sahLt ((lVals info shift rs (lSweepAux info shift rs k) (k + 1)).2.2 d)
          ((lSweepAux info shift rs k).vbestSAH d) = true
    · rw [if_pos hcase, if_pos hcase]
      exact Or.inr ⟨by omega, by omega, _, rfl⟩
    · rw [if_neg hcase, if_neg hcase]
      rcases ih with h | h
      · exact Or.inl h
      · exact Or.inr ⟨h.1, by omega, h.2.2⟩

/-! ### Order facts about the sentinel comparison -/

theorem ltOpt_irrefl (a : Option ℚ) : ltOpt a a = false := by
  cases a <;> simp [ltOpt]

theorem ltOpt_trans_right {a b c : Option ℚ} (h1 : ltOpt a b = true)
    (h2 : ltOpt c b = false) : ltOpt a c = true := by
  cases a <;> cases b <;> cases c <;> simp_all [ltOpt]
  linarith

theorem ltOpt_trans_left {a b c : Option ℚ} (h1 : ltOpt a b = true)
    (h2 : ltOpt c b = false) : ltOpt c a = false := by
  cases a <;> cases b <;> cases c <;> simp_all [ltOpt]
  linarith

/-! ### Invariant of the axis-selection loop -/

/-- An axis the selection loop may take: not flagged invalid by the mapping,
and with a nonzero per-axis best boundary position. -/
def usableD (m : SpatialBinMapping) (ls : LState) (d : Dim) : Prop :=
  m.invalid d = false ∧ ls.vbestPos d ≠ 0

/-- Invariant of the axis-selection loop after the first `k` axes have been
scanned. -/
def SelInv (m : SpatialBinMapping) (ls : LState) (k : ℕ) (st : BestState) :
    Prop :=
  (st.bestDim = -1 ∨ ∃ e : Dim, st.bestDim = ((e : ℕ) : ℤ))
  ∧ (st.bestDim = -1 →
      st.bestSAH = none ∧ ∀ e : Dim, (e : ℕ) < k → ¬ usableD m ls e)
  ∧ (∀ e : Dim, st.bestDim = ((e : ℕ) : ℤ) →
      (e : ℕ) < k ∧ usableD m ls e ∧ st.bestSAH = ls.vbestSAH e
        ∧ st.bestPos = ls.vbestPos e
        ∧ ∀ e' : Dim, e' < e → usableD m ls e' →
            ltOpt (ls.vbestSAH e) (ls.vbestSAH e') = true)
  ∧ (∀ e : Dim, (e : ℕ) < k → usableD m ls e →
      ltOpt (ls.vbestSAH e) st.bestSAH = false)

theorem selInv_init (m : SpatialBinMapping) (ls : LState) :
    SelInv m ls 0 ⟨none, -1, 0⟩ := by
  refine ⟨Or.inl rfl, fun _ => ⟨rfl, fun e he => by omega⟩, fun e he => ?_, fun e he => by omega⟩
  exfalso
  simp only [show (⟨none, -1, 0⟩ : BestState).bestDim = -1 from rfl] at he
  omega

theorem selStep_inv (m : SpatialBinMapping) (ls : LState)
    (hsome : ∀ e : Dim, ls.vbestPos e ≠ 0 → ∃ q, ls.vbestSAH e = some q)
    (k : Dim) (st : BestState) (h : SelInv m ls (k : ℕ) st) :
    SelInv m ls ((k : ℕ) + 1) (dimStep m ls st k) := by
  obtain ⟨hc1, hc2, hc3, hc4⟩ := h
  by_cases hinv : m.invalid k = true
  · rw [dimStep, if_pos hinv]
    refine ⟨hc1, fun hd => ⟨(hc2 hd).1, fun e he => ?_⟩, fun e he => ?_, fun e he hu => ?_⟩
    · by_cases hek : (e : ℕ) = (k : ℕ)
      · have : e = k := Fin.ext hek
        subst this
        intro hu
        rw [hu.1] at hinv
        exact Bool.false_ne_true hinv
      · exact (hc2 hd).2 e (by omega)
    · obtain ⟨h1, h2⟩ := hc3 e he
      exact ⟨by omega, h2⟩
    · by_cases hek : (e : ℕ) = (k : ℕ)
      · have : e = k := Fin.ext hek
        subst this
        rw [hu.1] at hinv
        exact absurd hinv Bool.false_ne_true
      · exact hc4 e (by omega) hu
  · have hinv' : m.invalid k = false := by
      cases hmk : m.invalid k
      · rfl
      · exact absurd hmk hinv
    by_cases hcond :
        (ltOpt (ls.vbestSAH k) st.bestSAH && !(ls.vbestPos k == 0)) = true
    · rw [dimStep, if_neg (by rw [hinv']; exact Bool.false_ne_true), if_pos hcond]
      have hlt : ltOpt (ls.vbestSAH k) st.bestSAH = true :=
        (Bool.and_eq_true _ _ |>.mp hcond).1
      have hpos : ls.vbestPos k ≠ 0 := by
        have := (Bool.and_eq_true _ _ |>.mp hcond).2
        simpa using this
      have husable : usableD m ls k := ⟨hinv', hpos⟩
      refine ⟨Or.inr ⟨k, rfl⟩, fun hd => ?_, fun e he => ?_, fun e he hu => ?_⟩
      · exfalso
        simp only [show (⟨ls.vbestSAH k, ((k : ℕ) : ℤ), ls.vbestPos k⟩ : BestState).bestDim
            = ((k : ℕ) : ℤ) from rfl] at hd
        omega
      · have hek : e = k := by
          simp only [show (⟨ls.vbestSAH k, ((k : ℕ) : ℤ), ls.vbestPos k⟩ : BestState).bestDim
              = ((k : ℕ) : ℤ) from rfl] at he
          exact (Fin.ext (by omega)).symm
        subst hek
        refine ⟨by omega, husable, rfl, rfl, fun e' he' hu' => ?_⟩
        have hval : (e' : ℕ) < (e : ℕ) := he'
        have h4 := hc4 e' hval hu'
        exact ltOpt_trans_right hlt h4
      · show ltOpt (ls.vbestSAH e) (ls.vbestSAH k) = false
        by_cases hek : (e : ℕ) = (k : ℕ)
        · have : e = k := Fin.ext hek
          subst this
          exact ltOpt_irrefl _
        · exact ltOpt_trans_left hlt (hc4 e (by omega) hu)
    · rw [dimStep, if_neg (by rw [hinv']; exact Bool.false_ne_true), if_neg hcond]
      refine ⟨hc1, fun hd => ⟨(hc2 hd).1, fun e he => ?_⟩, fun e he => ?_, fun e he hu => ?_⟩
      · by_cases hek : (e : ℕ) = (k : ℕ)
        · have : e = k := Fin.ext hek
          subst this
          intro hu
          obtain ⟨q, hq⟩ := hsome e hu.2
          have hbool : (!(ls.vbestPos e == 0)) = true := by
            simpa using hu.2
          have : ltOpt (ls.vbestSAH e) st.bestSAH = true := by
            rw [hq, (hc2 hd).1]
            rfl
          rw [Bool.and_eq_true] at hcond
          push_neg at hcond
          have := hcond this
          exact absurd hbool (by simp_all)
        · exact (hc2 hd).2 e (by omega)
      · obtain ⟨h1, h2⟩ := hc3 e he
        exact ⟨by omega, h2⟩
      · by_cases hek : (e : ℕ) = (k : ℕ)
        · have : e = k := Fin.ext hek
          subst this
          have hbool : (!(ls.vbestPos e == 0)) = true := by
            simpa using hu.2
          cases hlt : ltOpt (ls.vbestSAH e) st.bestSAH
          · rfl
          · exfalso
            rw [Bool.and_eq_true] at hcond
            push_neg at hcond
            exact absurd hbool (by simp_all)
        · exact hc4 e (by omega) hu

theorem selFold_inv (m : SpatialBinMapping) (ls : LState)
    (hsome : ∀ e : Dim, ls.vbestPos e ≠ 0 → ∃ q, ls.vbestSAH e = some q) :
    SelInv m ls 3 (selFoldState m ls) := by
  have h0 := selInv_init m ls
  have h1 := selStep_inv m ls hsome 0 _ h0
  have h2 := selStep_inv m ls hsome 1 _ h1
  have h3 := selStep_inv m ls hsome 2 _ h2
  exact h3

/-! ### Structure of the inner clipping loop -/

theorem foldl_clip_l_count (m : SpatialBinMapping) (p : Prim) (d : Dim)
    (L : List ℕ) (st : ClipState) (c : ℤ)
    (h : st.l = c + st.lefts.countP (fun b => b.isEmpty)) :
    (L.foldl (clipStep m p d) st).l
      = c + ((L.foldl (clipStep m p d) st).lefts.countP (fun b => b.isEmpty) : ℤ) := by
  induction L generalizing st with
  | nil => exact h
  | cons a L ih =>
    refine ih (clipStep m p d st a) ?_
    rw [clipStep]
    show (if (p.split st.rest d (m.pos (a + 1) d)).1.isEmpty then st.l + 1 else st.l)
      = c + ((st.lefts ++ [(p.split st.rest d (m.pos (a + 1) d)).1]).countP
          (fun b => b.isEmpty) : ℤ)
    rw [List.countP_append]
    by_cases hemp : (p.split st.rest d (m.pos (a + 1) d)).1.isEmpty
    · rw [if_pos hemp, h]
      simp [List.countP, List.countP.go, hemp]
      ring
    · rw [if_neg hemp, h]
      simp [List.countP, List.countP.go, hemp]

theorem foldl_clip_l_ge (m : SpatialBinMapping) (p : Prim) (d : Dim)
    (L : List ℕ) (st : ClipState) :
    st.l ≤ (L.foldl (clipStep m p d) st).l := by
  induction L generalizing st with
  | nil => exact le_refl _
  | cons a L ih =>
    refine le_trans ?_ (ih (clipStep m p d st a))
    rw [clipStep]
    show st.l ≤ if (p.split st.rest d (m.pos (a + 1) d)).1.isEmpty then st.l + 1 else st.l
    split <;> omega

theorem foldl_clip_l_le (m : SpatialBinMapping) (p : Prim) (d : Dim)
    (L : List ℕ) (st : ClipState) :
    (L.foldl (clipStep m p d) st).l ≤ st.l + L.length := by
  induction L generalizing st with
  | nil => simp
  | cons a L ih =>
    refine le_trans (ih (clipStep m p d st a)) ?_
    have : (clipStep m p d st a).l ≤ st.l + 1 := by
      rw [clipStep]
      show (if (p.split st.rest d (m.pos (a + 1) d)).1.isEmpty then st.l + 1 else st.l) ≤ _
      split <;> omega
    simp only [List.length_cons]
    omega

theorem extendAt_merge (A B : ℤ → Dim → EBBox) (i0 : ℤ) (d0 : Dim) (b : BBox3) :
    extendAt (fun i dd => extendEE (A i dd) (B i dd)) i0 d0 b
      = fun i dd => extendEE (A i dd) (extendAt B i0 d0 b i dd) := by
  funext i dd
  simp only [extendAt]
  split_ifs with h
  · exact extendE_extendEE _ _ _
  · rfl

theorem foldl_clip_merge (m : SpatialBinMapping) (p : Prim) (d : Dim)
    (L : List ℕ) (rest : BBox3) (l : ℤ) (lefts : List BBox3)
    (A B : ℤ → Dim → EBBox) :
    L.foldl (clipStep m p d) ⟨rest, l, fun i dd => extendEE (A i dd) (B i dd), lefts⟩
      = ClipState.mk (L.foldl (clipStep m p d) ⟨rest, l, B, lefts⟩).rest
          (L.foldl (clipStep m p d) ⟨rest, l, B, lefts⟩).l
          (fun i dd => extendEE (A i dd)
            ((L.foldl (clipStep m p d) ⟨rest, l, B, lefts⟩).bnds i dd))
          (L.foldl (clipStep m p d) ⟨rest, l, B, lefts⟩).lefts := by
  induction L generalizing rest l lefts B with
  | nil => rfl
  | cons a L ih =>
    simp only [List.foldl_cons]
    have hstep : clipStep m p d ⟨rest, l, fun i dd => extendEE (A i dd) (B i dd), lefts⟩ a
        = ⟨(p.split rest d (m.pos (a + 1) d)).2,
           if (p.split rest d (m.pos (a + 1) d)).1.isEmpty then l + 1 else l,
           fun i dd => extendEE (A i dd)
             (extendAt B (a : ℤ) d (p.split rest d (m.pos (a + 1) d)).1 i dd),
           lefts ++ [(p.split rest d (m.pos (a + 1) d)).1]⟩ := by
      show ClipState.mk _ _
          (extendAt (fun i dd => extendEE (A i dd) (B i dd)) (a : ℤ) d
            (p.split rest d (m.pos (a + 1) d)).1) _ = _
      rw [extendAt_merge]
    have hstepB : clipStep m p d ⟨rest, l, B, lefts⟩ a
        = ⟨(p.split rest d (m.pos (a + 1) d)).2,
           if (p.split rest d (m.pos (a + 1) d)).1.isEmpty then l + 1 else l,
           extendAt B (a : ℤ) d (p.split rest d (m.pos (a + 1) d)).1,
           lefts ++ [(p.split rest d (m.pos (a + 1) d)).1]⟩ := rfl
    rw [hstep, hstepB]
    exact ih _ _ _ _

theorem bumpAt_merge (A B : ℤ → Dim → ℕ) (i0 : ℤ) (d0 : Dim) :
    bumpAt (fun i dd => A i dd + B i dd) i0 d0
      = fun i dd => A i dd + bumpAt B i0 d0 i dd := by
  funext i dd
  simp only [bumpAt]
  split_ifs with h
  · ring
  · rfl

theorem binPrimDim_merge (BINS : ℕ) (m : SpatialBinMapping) (p : Prim) (d : Dim)
    (A B : SpatialBinInfo) :
    binPrimDim BINS m p d (A.merge B) = A.merge (binPrimDim BINS m p d B) := by
  have hinner : innerFold BINS m p d (A.merge B).bounds
      = ClipState.mk (innerFold BINS m p d B.bounds).rest
          (innerFold BINS m p d B.bounds).l
          (fun i dd => extendEE (A.bounds i dd) ((innerFold BINS m p d B.bounds).bnds i dd))
          (innerFold BINS m p d B.bounds).lefts :=
    foldl_clip_merge m p d _ _ _ _ A.bounds B.bounds
  simp only [binPrimDim, hinner]
  simp only [SpatialBinInfo.merge, endIdx, extendAt_merge, bumpAt_merge]

theorem binPrim_merge (BINS : ℕ) (m : SpatialBinMapping) (A B : SpatialBinInfo)
    (p : Prim) :
    binPrim BINS m (A.merge B) p = A.merge (binPrim BINS m B p) := by
  have h : (List.finRange 3) = [0, 1, 2] := rfl
  simp only [binPrim, h, List.foldl_cons, List.foldl_nil]
  rw [binPrimDim_merge, binPrimDim_merge, binPrimDim_merge]

theorem bin_merge (BINS : ℕ) (m : SpatialBinMapping) (prims : List Prim)
    (A B : SpatialBinInfo) :
    (A.merge B).bin BINS m prims = A.merge (B.bin BINS m prims) := by
  induction prims generalizing B with
  | nil => rfl
  | cons q qs ih =>
    simp only [SpatialBinInfo.bin, List.foldl_cons]
    rw [binPrim_merge]
    have := ih (binPrim BINS m B q)
    simpa [SpatialBinInfo.bin] using this

theorem bin_append (BINS : ℕ) (m : SpatialBinMapping) (xs ys : List Prim)
    (acc : SpatialBinInfo) :
    acc.bin BINS m (xs ++ ys) = (acc.bin BINS m xs).bin BINS m ys := by
  simp [SpatialBinInfo.bin, List.foldl_append]

/-! ### Ranges of the binning indices -/

theorem bin_nonneg (m : SpatialBinMapping) (BINS : ℕ) (pt : Dim → ℚ) (d : Dim) :
    0 ≤ m.bin BINS pt d := le_max_left _ _

theorem bin_le_last (m : SpatialBinMapping) (BINS : ℕ) (hB : 1 ≤ BINS)
    (pt : Dim → ℚ) (d : Dim) :
    m.bin BINS pt d ≤ (BINS : ℤ) - 1 := by
  rw [SpatialBinMapping.bin]
  have h1 : (1 : ℤ) ≤ (BINS : ℤ) := by exact_mod_cast hB
  exact max_le (by omega) (min_le_right _ _)

theorem bin0N_le (BINS : ℕ) (hB : 1 ≤ BINS) (m : SpatialBinMapping) (p : Prim)
    (d : Dim) : bin0N BINS m p d ≤ BINS - 1 := by
  rw [bin0N, Int.toNat_le]
  have := bin_le_last m BINS hB p.bounds.lower d
  omega

theorem bin1N_le (BINS : ℕ) (hB : 1 ≤ BINS) (m : SpatialBinMapping) (p : Prim)
    (d : Dim) : bin1N BINS m p d ≤ BINS - 1 := by
  rw [bin1N, Int.toNat_le]
  have := bin_le_last m BINS hB p.bounds.upper d
  omega

theorem lower_le_upper_of_not_empty (b : BBox3) (h : b.isEmpty = false) (d : Dim) :
    b.lower d ≤ b.upper d := by
  rw [BBox3.isEmpty] at h
  simp only [decide_eq_false_iff_not] at h
  push_neg at h
  obtain ⟨h0, h1, h2⟩ := h
  fin_cases d
  · exact h0
  · exact h1
  · exact h2

theorem bin_mono (m : SpatialBinMapping) (BINS : ℕ) (d : Dim)
    (hscale : 0 ≤ m.scale d) (x y : Dim → ℚ) (hxy : x d ≤ y d) :
    m.bin BINS x d ≤ m.bin BINS y d := by
  rw [SpatialBinMapping.bin, SpatialBinMapping.bin]
  have hm : (x d - m.ofs d) * m.scale d ≤ (y d - m.ofs d) * m.scale d :=
    mul_le_mul_of_nonneg_right (by linarith) hscale
  exact max_le_max (le_refl _) (min_le_min (Int.floor_le_floor hm) (le_refl _))

theorem bin0N_le_bin1N (BINS : ℕ) (m : SpatialBinMapping) (p : Prim) (d : Dim)
    (hscale : 0 ≤ m.scale d) (hne : p.bounds.isEmpty = false) :
    bin0N BINS m p d ≤ bin1N BINS m p d := by
  rw [bin0N, bin1N]
  exact Int.toNat_le_toNat
    (bin_mono m BINS d hscale _ _ (lower_le_upper_of_not_empty p.bounds hne d))

theorem innerFold_l_ge (BINS : ℕ) (m : SpatialBinMapping) (p : Prim) (d : Dim)
    (bnds : ℤ → Dim → EBBox) :
    ((bin0N BINS m p d : ℕ) : ℤ) ≤ (innerFold BINS m p d bnds).l :=
  foldl_clip_l_ge m p d _ _

theorem innerFold_l_le (BINS : ℕ) (m : SpatialBinMapping) (p : Prim) (d : Dim)
    (bnds : ℤ → Dim → EBBox) :
    (innerFold BINS m p d bnds).l
      ≤ ((bin0N BINS m p d : ℕ) : ℤ) + ((bin1N BINS m p d - bin0N BINS m p d : ℕ) : ℤ) := by
  rw [innerFold]
  have h := foldl_clip_l_le m p d
    (List.range' (bin0N BINS m p d) (bin1N BINS m p d - bin0N BINS m p d))
    ⟨p.bounds, ((bin0N BINS m p d : ℕ) : ℤ), bnds, []⟩
  have hinit : (⟨p.bounds, ((bin0N BINS m p d : ℕ) : ℤ), bnds, []⟩ : ClipState).l
      = ((bin0N BINS m p d : ℕ) : ℤ) := rfl
  rw [hinit, List.length_range'] at h
  exact le_trans h (by omega)

theorem innerFold_of_le (BINS : ℕ) (m : SpatialBinMapping) (p : Prim) (d : Dim)
    (bnds : ℤ → Dim → EBBox) (h : bin1N BINS m p d ≤ bin0N BINS m p d) :
    innerFold BINS m p d bnds = ⟨p.bounds, ((bin0N BINS m p d : ℕ) : ℤ), bnds, []⟩ := by
  rw [innerFold, show bin1N BINS m p d - bin0N BINS m p d = 0 from by omega]
  rfl

theorem endIdx_nonneg (BINS : ℕ) (m : SpatialBinMapping) (p : Prim) (d : Dim)
    (bnds : ℤ → Dim → EBBox) (hne : p.bounds.isEmpty = false) :
    0 ≤ endIdx BINS m p d (innerFold BINS m p d bnds) := by
  rw [endIdx]
  split_ifs with h
  · by_cases h1 : bin1N BINS m p d = 0
    · exfalso
      rw [innerFold_of_le BINS m p d bnds (by omega)] at h
      have : p.bounds.isEmpty = true := h
      rw [hne] at this
      exact Bool.false_ne_true this
    · omega
  · omega

theorem endIdx_le (BINS : ℕ) (m : SpatialBinMapping) (p : Prim) (d : Dim)
    (st : ClipState) : endIdx BINS m p d st ≤ ((bin1N BINS m p d : ℕ) : ℤ) := by
  rw [endIdx]
  split_ifs <;> omega

/-! ### The counters are incremented once per primitive per axis -/

theorem bumpAt_apply (f : ℤ → Dim → ℕ) (i0 : ℤ) (d0 : Dim) (j : ℤ) (dd : Dim) :
    bumpAt f i0 d0 j dd = f j dd + if j = i0 ∧ dd = d0 then 1 else 0 := by
  rw [bumpAt]
  split_ifs <;> simp

theorem sum_bumpAt (BINS : ℕ) (f : ℤ → Dim → ℕ) (i0 : ℤ) (d0 d : Dim)
    (h0 : 0 ≤ i0) (h1 : i0 < (BINS : ℤ)) :
    ∑ i ∈ Finset.Ico (0 : ℤ) (BINS : ℤ), bumpAt f i0 d0 i d
      = (∑ i ∈ Finset.Ico (0 : ℤ) (BINS : ℤ), f i d) + if d = d0 then 1 else 0 := by
  simp only [bumpAt_apply]
  rw [Finset.sum_add_distrib]
  congr 1
  by_cases hd : d = d0
  · subst hd
    simp only [and_true, if_pos]
    rw [Finset.sum_ite_eq' (Finset.Ico (0 : ℤ) (BINS : ℤ)) i0 (fun _ => 1)]
    simp [Finset.mem_Ico, h0, h1]
  · simp [hd]

theorem binPrimDim_sumBegin (BINS : ℕ) (hB : 1 ≤ BINS) (m : SpatialBinMapping)
    (p : Prim) (d0 d : Dim) (acc : SpatialBinInfo) :
    ∑ i ∈ Finset.Ico (0 : ℤ) (BINS : ℤ), (binPrimDim BINS m p d0 acc).numBegin i d
      = (∑ i ∈ Finset.Ico (0 : ℤ) (BINS : ℤ), acc.numBegin i d)
        + if d = d0 then 1 else 0 := by
  have hb0 := bin0N_le BINS hB m p d0
  have hb1 := bin1N_le BINS hB m p d0
  have hge := innerFold_l_ge BINS m p d0 acc.bounds
  have hle := innerFold_l_le BINS m p d0 acc.bounds
  simp only [binPrimDim]
  exact sum_bumpAt BINS acc.numBegin _ d0 d (by omega) (by omega)

theorem binPrimDim_sumEnd (BINS : ℕ) (hB : 1 ≤ BINS) (m : SpatialBinMapping)
    (p : Prim) (hne : p.bounds.isEmpty = false) (d0 d : Dim)
    (acc : SpatialBinInfo) :
    ∑ i ∈ Finset.Ico (0 : ℤ) (BINS : ℤ), (binPrimDim BINS m p d0 acc).numEnd i d
      = (∑ i ∈ Finset.Ico (0 : ℤ) (BINS : ℤ), acc.numEnd i d)
        + if d = d0 then 1 else 0 := by
  have hb1 := bin1N_le BINS hB m p d0
  have hge := endIdx_nonneg BINS m p d0 acc.bounds hne
  have hle := endIdx_le BINS m p d0 (innerFold BINS m p d0 acc.bounds)
  simp only [binPrimDim]
  exact sum_bumpAt BINS acc.numEnd _ d0 d (by omega) (by omega)

theorem binPrim_sumBegin (BINS : ℕ) (hB : 1 ≤ BINS) (m : SpatialBinMapping)
    (p : Prim) (d : Dim) (acc : SpatialBinInfo) :
    ∑ i ∈ Finset.Ico (0 : ℤ) (BINS : ℤ), (binPrim BINS m acc p).numBegin i d
      = (∑ i ∈ Finset.Ico (0 : ℤ) (BINS : ℤ), acc.numBegin i d) + 1 := by
  have hfr : (List.finRange 3) = [0, 1, 2] := rfl
  simp only [binPrim, hfr, List.foldl_cons, List.foldl_nil]
  rw [binPrimDim_sumBegin BINS hB m p 2 d, binPrimDim_sumBegin BINS hB m p 1 d,
    binPrimDim_sumBegin BINS hB m p 0 d]
  fin_cases d <;> simp

theorem binPrim_sumEnd (BINS : ℕ) (hB : 1 ≤ BINS) (m : SpatialBinMapping)
    (p : Prim) (hne : p.bounds.isEmpty = false) (d : Dim) (acc : SpatialBinInfo) :
    ∑ i ∈ Finset.Ico (0 : ℤ) (BINS : ℤ), (binPrim BINS m acc p).numEnd i d
      = (∑ i ∈ Finset.Ico (0 : ℤ) (BINS : ℤ), acc.numEnd i d) + 1 := by
  have hfr : (List.finRange 3) = [0, 1, 2] := rfl
  simp only [binPrim, hfr, List.foldl_cons, List.foldl_nil]
  rw [binPrimDim_sumEnd BINS hB m p hne 2 d, binPrimDim_sumEnd BINS hB m p hne 1 d,
    binPrimDim_sumEnd BINS hB m p hne 0 d]
  fin_cases d <;> simp

theorem bin_sumBegin (BINS : ℕ) (hB : 1 ≤ BINS) (m : SpatialBinMapping)
    (prims : List Prim) (d : Dim) (acc : SpatialBinInfo) :
    ∑ i ∈ Finset.Ico (0 : ℤ) (BINS : ℤ), (acc.bin BINS m prims).numBegin i d
      = (∑ i ∈ Finset.Ico (0 : ℤ) (BINS : ℤ), acc.numBegin i d) + prims.length := by
  induction prims generalizing acc with
  | nil => simp [SpatialBinInfo.bin]
  | cons q qs ih =>
    simp only [SpatialBinInfo.bin, List.foldl_cons, List.length_cons]
    have h1 := ih (binPrim BINS m acc q)
    simp only [SpatialBinInfo.bin] at h1
    rw [h1, binPrim_sumBegin BINS hB m q d acc]
    omega

theorem bin_sumEnd (BINS : ℕ) (hB : 1 ≤ BINS) (m : SpatialBinMapping)
    (prims : List Prim) (hne : ∀ p ∈ prims, p.bounds.isEmpty = false) (d : Dim)
    (acc : SpatialBinInfo) :
    ∑ i ∈ Finset.Ico (0 : ℤ) (BINS : ℤ), (acc.bin BINS m prims).numEnd i d
      = (∑ i ∈ Finset.Ico (0 : ℤ) (BINS : ℤ), acc.numEnd i d) + prims.length := by
  induction prims generalizing acc with
  | nil => simp [SpatialBinInfo.bin]
  | cons q qs ih =>
    simp only [SpatialBinInfo.bin, List.foldl_cons, List.length_cons]
    have h1 := ih (fun p hp => hne p (List.mem_cons_of_mem q hp)) (binPrim BINS m acc q)
    simp only [SpatialBinInfo.bin] at h1
    rw [h1, binPrim_sumEnd BINS hB m q (hne q (List.mem_cons_self q qs)) d acc]
    omega

theorem lSweepAux_step_at (BINS : ℕ) (info : SpatialBinInfo) (shift : ℕ)
    (i : ℕ) (h1 : 1 ≤ i) (d : Dim) :
    (lSweepAux info shift (rSweep BINS info) i).vbestSAH d
      = if sahLt (sahAt BINS info shift i d)
            ((lSweepAux info shift (rSweep BINS info) (i - 1)).vbestSAH d)
        then some (sahAt BINS info shift i d)
        else (lSweepAux info shift (rSweep BINS info) (i - 1)).vbestSAH d := by
  obtain ⟨k, rfl⟩ : ∃ k, i = k + 1 := ⟨i - 1, by omega⟩
  rw [lSweepAux, lStep_vbestSAH]
  rfl

/-- Unfolding of `SpatialBinInfo::best` into its sweep and selection parts. -/
theorem best_def (info : SpatialBinInfo) (BINS : ℕ) (m : SpatialBinMapping)
    (shift : ℕ) :
    info.best BINS m shift
      = if (selFoldState m (lSweep BINS info shift (rSweep BINS info))).bestDim = -1
        then ⟨none, -1, 0, m⟩
        else ⟨(selFoldState m (lSweep BINS info shift (rSweep BINS info))).bestSAH,
              (selFoldState m (lSweep BINS info shift (rSweep BINS info))).bestDim,
              (selFoldState m (lSweep BINS info shift (rSweep BINS info))).bestPos,
              m⟩ := rfl

theorem lSweep_some (BINS : ℕ) (info : SpatialBinInfo) (shift : ℕ)
    (rs : RState) (e : Dim)
    (he : (lSweep BINS info shift rs).vbestPos e ≠ 0) :
    ∃ q, (lSweep BINS info shift rs).vbestSAH e = some q := by
  rcases lSweepAux_inv info shift rs (BINS - 1) e with h | h
  · exact absurd h.1 he
  · exact h.2.2

/-! ### Concrete inputs used by the witnesses -/

/-- A mapping with offset 0 and scale 1 on every axis (valid everywhere). -/
def mW : SpatialBinMapping := ⟨fun _ => 0, fun _ => 1⟩

/-- A primitive with the non-empty point box at the origin, spanning a single
bin under `mW`; its clip function returns the remainder unchanged on both
sides. -/
def pW : Prim := ⟨⟨fun _ => 0, fun _ => 0⟩, fun r _ _ => (r, r)⟩

/-- A primitive with an empty (inverted) box whose upper corner maps to bin 0
under `mW`: the case excluded by the index-safety precondition. -/
def pX : Prim := ⟨⟨fun _ => 1, fun _ => 0⟩, fun r _ _ => (r, r)⟩

/-- A two-bin accumulator: the unit cube in bin 0 and its translate in bin 1,
one primitive beginning in bin 0 and ending in bin 1, on every axis. -/
def infoW : SpatialBinInfo :=
  ⟨fun j _ => if j = 0 then some ⟨fun _ => 0, fun _ => 1⟩
      else if j = 1 then some ⟨fun _ => 1, fun _ => 2⟩ else none,
   fun j _ => if j = 0 then 1 else 0,
   fun j _ => if j = 1 then 1 else 0⟩

/-- A mapping that is valid on axis 0 only (`scale = (1,0,0)`). -/
def mV : SpatialBinMapping := ⟨fun _ => 0, fun d => if d = 0 then 1 else 0⟩

/-- A two-bin accumulator with empty boxes everywhere, one primitive counted
as beginning in bin 0 and ending in bin 1 on every axis. -/
def infoV : SpatialBinInfo :=
  ⟨fun _ _ => none,
   fun j _ => if j = 0 then 1 else 0,
   fun j _ => if j = 1 then 1 else 0⟩

/-! ### The claims -/

/-- C1: in `SpatialBinInfo::best`, for every boundary position `i` in
`1..BINS-1` and every axis, the evaluated SAH cost equals
`leftArea * ceil(leftCount / blockSize) + rightArea * ceil(rightCount / blockSize)`
where `leftCount` sums `numBegin` over bins `0..i-1`, `rightCount` sums
`numEnd` over bins `i..BINS-1`, `leftArea` and `rightArea` are the half areas
of the unions of the corresponding bins boxes, `blockSize = 2 ^ blocks_shift`,
and the ceiling is computed as `(x + blockSize - 1) >> blocks_shift`. -/
theorem C1_sah_formula (BINS : ℕ) (info : SpatialBinInfo) (shift : ℕ) (i : ℕ)
    (d : Dim) (h1 : 1 ≤ i) (h2 : i < BINS) :
    sahAt BINS info shift i d
      = halfAreaE (unionN (fun j => info.bounds (j : ℤ) d) 0 i)
          * ((((∑ j ∈ Finset.range i, info.numBegin (j : ℤ) d)
                + (2 ^ shift - 1)) >>> shift : ℕ) : ℚ)
        + halfAreaE (unionN (fun j => info.bounds (j : ℤ) d) i (BINS - i))
          * ((((∑ j ∈ Finset.Ico i BINS, info.numEnd (j : ℤ) d)
                + (2 ^ shift - 1)) >>> shift : ℕ) : ℚ) := by
  have hcast : ((i : ℕ) : ℤ) - 1 = ((i - 1 : ℕ) : ℤ) := by omega
  have hi : i - 1 + 1 = i := by omega
  rw [sahAt]
  show halfAreaE (extendEE
        ((lSweepAux info shift (rSweep BINS info) (i - 1)).boxes d)
        (info.bounds ((i : ℤ) - 1) d))
      * ((((lSweepAux info shift (rSweep BINS info) (i - 1)).count d
            + info.numBegin ((i : ℤ) - 1) d + ((1 <<< shift) - 1)) >>> shift : ℕ) : ℚ)
    + (rSweep BINS info).rAreas i d
      * ((((rSweep BINS info).rCounts i d + ((1 <<< shift) - 1)) >>> shift : ℕ) : ℚ)
    = _
  have hleft : extendEE ((lSweepAux info shift (rSweep BINS info) (i - 1)).boxes d)
      (info.bounds ((i : ℤ) - 1) d)
      = unionN (fun j => info.bounds (j : ℤ) d) 0 i := by
    rw [lSweepAux_boxes, hcast, ← hi, unionN_succ_top]
    simp
  have hcount : (lSweepAux info shift (rSweep BINS info) (i - 1)).count d
      + info.numBegin ((i : ℤ) - 1) d
      = ∑ j ∈ Finset.range i, info.numBegin (j : ℤ) d := by
    rw [lSweepAux_count, hcast, ← hi, Finset.sum_range_succ]
    simp
  have hrA : (rSweep BINS info).rAreas i d
      = halfAreaE (unionN (fun j => info.bounds (j : ℤ) d) i (BINS - i)) := by
    rw [rSweep]
    exact rSweepAux_rAreas BINS info (BINS - 1) (le_refl _) i (by omega) h2 d
  have hrC : (rSweep BINS info).rCounts i d
      = ∑ j ∈ Finset.Ico i BINS, info.numEnd (j : ℤ) d := by
    rw [rSweep]
    exact rSweepAux_rCounts BINS info (BINS - 1) (le_refl _) i (by omega) h2 d
  have hshift : (1 <<< shift) - 1 = 2 ^ shift - 1 := by rw [Nat.one_shiftLeft]
  rw [hleft, hcount, hrA, hrC, hshift]

theorem C1_witness :
    sahAt 2 infoW 0 1 0
      = halfAreaE (unionN (fun j => infoW.bounds (j : ℤ) 0) 0 1)
          * ((((∑ j ∈ Finset.range 1, infoW.numBegin (j : ℤ) 0)
                + (2 ^ 0 - 1)) >>> 0 : ℕ) : ℚ)
        + halfAreaE (unionN (fun j => infoW.bounds (j : ℤ) 0) 1 (2 - 1))
          * ((((∑ j ∈ Finset.Ico 1 2, infoW.numEnd (j : ℤ) 0)
                + (2 ^ 0 - 1)) >>> 0 : ℕ) : ℚ) :=
  C1_sah_formula 2 infoW 0 1 0 (by norm_num) (by norm_num)

/-- C2: `SpatialBinInfo::best` returns the invalid sentinel
(`sah = inf, dim = -1, pos = 0`) exactly when every axis is flagged invalid
by the mapping or has best boundary position 0, and
`SpatialBinSplit::valid()` is false exactly on `dim = -1`. -/
theorem C2_invalid_sentinel (BINS : ℕ) (info : SpatialBinInfo)
    (m : SpatialBinMapping) (shift : ℕ) :
    (info.best BINS m shift = ⟨none, -1, 0, m⟩
      ↔ ∀ d : Dim, m.invalid d = true
          ∨ (lSweep BINS info shift (rSweep BINS info)).vbestPos d = 0)
    ∧ ((info.best BINS m shift).valid = false
      ↔ (info.best BINS m shift).dim = -1) := by
  obtain ⟨hc1, hc2, hc3, hc4⟩ :=
    selFold_inv m (lSweep BINS info shift (rSweep BINS info))
      (lSweep_some BINS info shift (rSweep BINS info))
  constructor
  · constructor
    · intro hres d
      by_cases hdim :
          (selFoldState m (lSweep BINS info shift (rSweep BINS info))).bestDim = -1
      · have hnu := (hc2 hdim).2 d d.isLt
        rw [usableD] at hnu
        push_neg at hnu
        by_cases hinv : m.invalid d = true
        · exact Or.inl hinv
        · have hfalse : m.invalid d = false := by
            cases hmd : m.invalid d
            · rfl
            · exact absurd hmd hinv
          exact Or.inr (hnu hfalse)
      · exfalso
        rw [best_def, if_neg hdim] at hres
        have hd : (selFoldState m (lSweep BINS info shift (rSweep BINS info))).bestDim
            = (-1 : ℤ) := congrArg SpatialBinSplit.dim hres
        exact hdim hd
    · intro hall
      have hdim :
          (selFoldState m (lSweep BINS info shift (rSweep BINS info))).bestDim = -1 := by
        rcases hc1 with hd | ⟨e, he⟩
        · exact hd
        · exfalso
          have hu := (hc3 e he).2.1
          rcases hall e with hx | hx
          · rw [hu.1] at hx
            exact Bool.false_ne_true hx
          · exact hu.2 hx
      rw [best_def, if_pos hdim]
  · simp [SpatialBinSplit.valid]

/-- C3: in the axis-selection step of `SpatialBinInfo::best`, a returned axis
is never invalid and never has best boundary position 0, its per-axis best
cost is minimal among the usable axes, and every usable axis of smaller index
has strictly greater cost (first axis with the minimum wins). -/
theorem C3_axis_selection (BINS : ℕ) (info : SpatialBinInfo)
    (m : SpatialBinMapping) (shift : ℕ) (d : Dim)
    (h : (info.best BINS m shift).dim = ((d : ℕ) : ℤ)) :
    m.invalid d = false
    ∧ (lSweep BINS info shift (rSweep BINS info)).vbestPos d ≠ 0
    ∧ ∀ dd : Dim, m.invalid dd = false →
        (lSweep BINS info shift (rSweep BINS info)).vbestPos dd ≠ 0 →
        ltOpt ((lSweep BINS info shift (rSweep BINS info)).vbestSAH dd)
            ((lSweep BINS info shift (rSweep BINS info)).vbestSAH d) = false
        ∧ (dd < d →
            ltOpt ((lSweep BINS info shift (rSweep BINS info)).vbestSAH d)
              ((lSweep BINS info shift (rSweep BINS info)).vbestSAH dd) = true) := by
  obtain ⟨hc1, hc2, hc3, hc4⟩ :=
    selFold_inv m (lSweep BINS info shift (rSweep BINS info))
      (lSweep_some BINS info shift (rSweep BINS info))
  have hdim : (selFoldState m (lSweep BINS info shift (rSweep BINS info))).bestDim
      = ((d : ℕ) : ℤ) := by
    by_cases hd : (selFoldState m (lSweep BINS info shift (rSweep BINS info))).bestDim = -1
    · rw [best_def, if_pos hd] at h
      exfalso
      have hneg : (-1 : ℤ) = ((d : ℕ) : ℤ) := h
      omega
    · rw [best_def, if_neg hd] at h
      exact h
  obtain ⟨hlt3, hu, hsah, hpos, htie⟩ := hc3 d hdim
  refine ⟨hu.1, hu.2, fun dd h1 h2 => ⟨?_, fun hlt => ?_⟩⟩
  · have h4 := hc4 dd dd.isLt ⟨h1, h2⟩
    rw [hsah] at h4
    exact h4
  · exact htie dd hlt ⟨h1, h2⟩

theorem C3_witness :
    (infoV.best 2 mV 0).dim = (((0 : Dim) : ℕ) : ℤ)
    ∧ (mV.invalid 0 = false
      ∧ (lSweep 2 infoV 0 (rSweep 2 infoV)).vbestPos 0 ≠ 0
      ∧ ∀ dd : Dim, mV.invalid dd = false →
          (lSweep 2 infoV 0 (rSweep 2 infoV)).vbestPos dd ≠ 0 →
          ltOpt ((lSweep 2 infoV 0 (rSweep 2 infoV)).vbestSAH dd)
              ((lSweep 2 infoV 0 (rSweep 2 infoV)).vbestSAH 0) = false
          ∧ (dd < 0 →
              ltOpt ((lSweep 2 infoV 0 (rSweep 2 infoV)).vbestSAH 0)
                ((lSweep 2 infoV 0 (rSweep 2 infoV)).vbestSAH dd) = true)) :=
  ⟨by decide, C3_axis_selection 2 infoV mV 0 0 (by decide)⟩

/-- C4: whenever `SpatialBinInfo::best` returns a valid split (`dim != -1`),
the returned boundary position lies in `1..BINS-1`: never 0 and never
`BINS`. -/
theorem C4_pos_range (BINS : ℕ) (info : SpatialBinInfo)
    (m : SpatialBinMapping) (shift : ℕ)
    (h : (info.best BINS m shift).dim ≠ -1) :
    1 ≤ (info.best BINS m shift).pos
    ∧ (info.best BINS m shift).pos ≤ (BINS : ℤ) - 1 := by
  obtain ⟨hc1, hc2, hc3, hc4⟩ :=
    selFold_inv m (lSweep BINS info shift (rSweep BINS info))
      (lSweep_some BINS info shift (rSweep BINS info))
  have hdim_ne :
      (selFoldState m (lSweep BINS info shift (rSweep BINS info))).bestDim ≠ -1 := by
    intro hd
    rw [best_def, if_pos hd] at h
    exact h rfl
  rcases hc1 with hd | ⟨e, he⟩
  · exact absurd hd hdim_ne
  obtain ⟨_, hu, _, hpos, _⟩ := hc3 e he
  have hres : (info.best BINS m shift).pos
      = (selFoldState m (lSweep BINS info shift (rSweep BINS info))).bestPos := by
    rw [best_def, if_neg hdim_ne]
  rw [hres, hpos]
  rcases lSweepAux_inv info shift (rSweep BINS info) (BINS - 1) e with hiv | hiv
  · exact absurd
      (show (lSweep BINS info shift (rSweep BINS info)).vbestPos e = 0 from hiv.1)
      hu.2
  · have hge : (1 : ℤ) ≤ (lSweep BINS info shift (rSweep BINS info)).vbestPos e :=
      hiv.1
    have hle : (lSweep BINS info shift (rSweep BINS info)).vbestPos e
        ≤ ((BINS - 1 : ℕ) : ℤ) := hiv.2.1
    exact ⟨hge, by omega⟩

theorem C4_witness :
    1 ≤ (infoV.best 2 mV 0).pos ∧ (infoV.best 2 mV 0).pos ≤ (2 : ℤ) - 1 :=
  C4_pos_range 2 infoV mV 0 (by decide)

/-- C5: `SpatialBinInfo::merge(other)` adds the `numBegin`/`numEnd` counters of
`other` and unions its per-bin boxes into `this`, for every bin and axis, and
this combine is associative and commutative:
`merge(merge(A,B),C) = merge(A,merge(B,C)) = merge(A,merge(C,B))`. -/
theorem C5_merge_assoc_comm (A B C : SpatialBinInfo) :
    ((A.merge B).numBegin = fun i d => A.numBegin i d + B.numBegin i d)
    ∧ ((A.merge B).numEnd = fun i d => A.numEnd i d + B.numEnd i d)
    ∧ ((A.merge B).bounds = fun i d => extendEE (A.bounds i d) (B.bounds i d))
    ∧ (A.merge B).merge C = A.merge (B.merge C)
    ∧ A.merge (B.merge C) = A.merge (C.merge B) := by
  refine ⟨rfl, rfl, rfl, ?_, ?_⟩
  · refine SpatialBinInfo.ext ?_ ?_ ?_
    · funext i d
      exact extendEE_assoc _ _ _
    · funext i d
      exact add_assoc _ _ _
    · funext i d
      exact add_assoc _ _ _
  · refine SpatialBinInfo.ext ?_ ?_ ?_
    · funext i d
      show extendEE (A.bounds i d) (extendEE (B.bounds i d) (C.bounds i d))
        = extendEE (A.bounds i d) (extendEE (C.bounds i d) (B.bounds i d))
      rw [extendEE_comm (B.bounds i d)]
    · funext i d
      exact congrArg _ (add_comm _ _)
    · funext i d
      exact congrArg _ (add_comm _ _)

/-- C6: binning a primitive array into one cleared accumulator equals binning
any two-way split of it (a prefix and the matching suffix) into two cleared
accumulators and merging the results, for every mapping. -/
theorem C6_bin_split_merge (BINS : ℕ) (m : SpatialBinMapping)
    (prims : List Prim) (n : ℕ) :
    SpatialBinInfo.clear.bin BINS m prims
      = (SpatialBinInfo.clear.bin BINS m (prims.take n)).merge
          (SpatialBinInfo.clear.bin BINS m (prims.drop n)) := by
  conv_lhs => rw [← List.take_append_drop n prims]
  rw [bin_append]
  conv_lhs => rw [← merge_clear_right (SpatialBinInfo.clear.bin BINS m (prims.take n))]
  exact bin_merge BINS m (prims.drop n) _ _

/-- C7: after binning `N` primitives (each with a non-empty bounding box) into
a cleared accumulator, on each axis the `numBegin` counters over the `BINS`
bins sum to `N`, and so do the `numEnd` counters: the loop increments each
counter family exactly once per primitive per axis. -/
theorem C7_counts_sum_to_N (BINS : ℕ) (m : SpatialBinMapping)
    (prims : List Prim) (hB : 1 ≤ BINS)
    (hne : ∀ p ∈ prims, p.bounds.isEmpty = false) (d : Dim) :
    (∑ i ∈ Finset.Ico (0 : ℤ) (BINS : ℤ),
        (SpatialBinInfo.clear.bin BINS m prims).numBegin i d) = prims.length
    ∧ (∑ i ∈ Finset.Ico (0 : ℤ) (BINS : ℤ),
        (SpatialBinInfo.clear.bin BINS m prims).numEnd i d) = prims.length := by
  constructor
  · rw [bin_sumBegin BINS hB m prims d SpatialBinInfo.clear]
    simp [SpatialBinInfo.clear]
  · rw [bin_sumEnd BINS hB m prims hne d SpatialBinInfo.clear]
    simp [SpatialBinInfo.clear]

theorem C7_witness :
    (∑ i ∈ Finset.Ico (0 : ℤ) (2 : ℤ),
        (SpatialBinInfo.clear.bin 2 mW [pW]).numBegin i 0) = 1
    ∧ (∑ i ∈ Finset.Ico (0 : ℤ) (2 : ℤ),
        (SpatialBinInfo.clear.bin 2 mW [pW]).numEnd i 0) = 1 := by
  have h := C7_counts_sum_to_N 2 mW [pW] (by norm_num)
    (by
      intro p hp
      rw [List.mem_singleton] at hp
      subst hp
      decide) 0
  simpa using h

/-- C8: for each primitive and axis, the `numBegin` index starts at
`bin0[axis]` and is advanced once per clip step whose left fragment is empty;
the `numEnd` index is `bin1[axis]` minus one exactly when the final remainder
is empty; with no empty fragments the increments land at `bin0[axis]` and
`bin1[axis]` themselves. -/
theorem C8_empty_fragment_policy (BINS : ℕ) (m : SpatialBinMapping) (p : Prim)
    (d : Dim) (bnds : ℤ → Dim → EBBox) (acc : SpatialBinInfo) :
    ((innerFold BINS m p d bnds).l
      = ((bin0N BINS m p d : ℕ) : ℤ)
        + ((innerFold BINS m p d bnds).lefts.countP (fun b => b.isEmpty) : ℤ))
    ∧ (endIdx BINS m p d (innerFold BINS m p d bnds)
        = if (innerFold BINS m p d bnds).rest.isEmpty
          then ((bin1N BINS m p d : ℕ) : ℤ) - 1
          else ((bin1N BINS m p d : ℕ) : ℤ))
    ∧ ((∀ b ∈ (innerFold BINS m p d bnds).lefts, b.isEmpty = false) →
        (innerFold BINS m p d bnds).rest.isEmpty = false →
        (innerFold BINS m p d bnds).l = ((bin0N BINS m p d : ℕ) : ℤ)
        ∧ endIdx BINS m p d (innerFold BINS m p d bnds)
            = ((bin1N BINS m p d : ℕ) : ℤ))
    ∧ (binPrimDim BINS m p d acc).numBegin
        = bumpAt acc.numBegin (innerFold BINS m p d acc.bounds).l d
    ∧ (binPrimDim BINS m p d acc).numEnd
        = bumpAt acc.numEnd (endIdx BINS m p d (innerFold BINS m p d acc.bounds)) d := by
  have hcount : (innerFold BINS m p d bnds).l
      = ((bin0N BINS m p d : ℕ) : ℤ)
        + ((innerFold BINS m p d bnds).lefts.countP (fun b => b.isEmpty) : ℤ) := by
    rw [innerFold]
    exact foldl_clip_l_count m p d _ _ _ (by simp)
  refine ⟨hcount, rfl, fun hl hr => ⟨?_, ?_⟩, rfl, rfl⟩
  · rw [hcount]
    have hz : (innerFold BINS m p d bnds).lefts.countP (fun b => b.isEmpty) = 0 := by
      rw [List.countP_eq_zero]
      intro a ha
      simp [hl a ha]
    rw [hz]
    simp
  · rw [endIdx, if_neg (by simp [hr])]

/-- C9: for every point and axis, `SpatialBinMapping::bin` equals
`floor((p - offset) * scale)` clamped to `[0, BINS-1]`, so the returned bin
index always lies in `[0, BINS-1]`. -/
theorem C9_bin_clamped (m : SpatialBinMapping) (BINS : ℕ) (pt : Dim → ℚ)
    (d : Dim) (hB : 1 ≤ BINS) :
    m.bin BINS pt d = max 0 (min ⌊(pt d - m.ofs d) * m.scale d⌋ ((BINS : ℤ) - 1))
    ∧ 0 ≤ m.bin BINS pt d ∧ m.bin BINS pt d ≤ (BINS : ℤ) - 1 :=
  ⟨rfl, bin_nonneg m BINS pt d, bin_le_last m BINS hB pt d⟩

theorem C9_witness :
    mW.bin 16 (fun _ => 37 / 2) 0
        = max 0 (min ⌊((37 / 2 : ℚ) - mW.ofs 0) * mW.scale 0⌋ ((16 : ℤ) - 1))
    ∧ 0 ≤ mW.bin 16 (fun _ => 37 / 2) 0
    ∧ mW.bin 16 (fun _ => 37 / 2) 0 ≤ (16 : ℤ) - 1 :=
  C9_bin_clamped mW 16 (fun _ => 37 / 2) 0 (by norm_num)

/-- C10: when every binned primitive has a non-empty bounding box (and the
mapping has the non-negative scales produced by its constructor), the count
indices of the binning loop stay in range: `l` lies in
`[bin0[axis], bin1[axis]]`, `r` is non-negative, and both lie in
`[0, BINS-1]`; without the precondition, a primitive whose empty box maps to
bin 0 drives the end index to `-1`. -/
theorem C10_index_safety (BINS : ℕ) (m : SpatialBinMapping) (p : Prim)
    (d : Dim) (bnds : ℤ → Dim → EBBox) (hB : 1 ≤ BINS)
    (hscale : ∀ dd : Dim, 0 ≤ m.scale dd) (hne : p.bounds.isEmpty = false) :
    (((bin0N BINS m p d : ℕ) : ℤ) ≤ (innerFold BINS m p d bnds).l
      ∧ (innerFold BINS m p d bnds).l ≤ ((bin1N BINS m p d : ℕ) : ℤ)
      ∧ 0 ≤ (innerFold BINS m p d bnds).l
      ∧ (innerFold BINS m p d bnds).l < (BINS : ℤ)
      ∧ 0 ≤ endIdx BINS m p d (innerFold BINS m p d bnds)
      ∧ endIdx BINS m p d (innerFold BINS m p d bnds) < (BINS : ℤ))
    ∧ endIdx 16 mW pX 0 (innerFold 16 mW pX 0 (fun _ _ => none)) = -1 := by
  have h01 := bin0N_le_bin1N BINS m p d (hscale d) hne
  have hb0 := bin0N_le BINS hB m p d
  have hb1 := bin1N_le BINS hB m p d
  have hge := innerFold_l_ge BINS m p d bnds
  have hle := innerFold_l_le BINS m p d bnds
  have hr0 := endIdx_nonneg BINS m p d bnds hne
  have hr1 := endIdx_le BINS m p d (innerFold BINS m p d bnds)
  have hxb1 : bin1N 16 mW pX 0 = 0 := by
    rw [bin1N, SpatialBinMapping.bin]
    norm_num [mW, pX]
  have hxb0 : bin0N 16 mW pX 0 = 1 := by
    rw [bin0N, SpatialBinMapping.bin]
    norm_num [mW, pX]
  have hfold := innerFold_of_le 16 mW pX 0 (fun _ _ => none) (by omega)
  refine ⟨⟨hge, by omega, by omega, by omega, hr0, by omega⟩, ?_⟩
  rw [hfold, endIdx, hxb1]
  rw [if_pos (by decide)]
  norm_num

theorem C10_witness :
    ((bin0N 16 mW pW 0 : ℤ) ≤ (innerFold 16 mW pW 0 (fun _ _ => none)).l
      ∧ (innerFold 16 mW pW 0 (fun _ _ => none)).l ≤ (bin1N 16 mW pW 0 : ℤ)
      ∧ 0 ≤ (innerFold 16 mW pW 0 (fun _ _ => none)).l
      ∧ (innerFold 16 mW pW 0 (fun _ _ => none)).l < (16 : ℤ)
      ∧ 0 ≤ endIdx 16 mW pW 0 (innerFold 16 mW pW 0 (fun _ _ => none))
      ∧ endIdx 16 mW pW 0 (innerFold 16 mW pW 0 (fun _ _ => none)) < (16 : ℤ))
    ∧ endIdx 16 mW pX 0 (innerFold 16 mW pX 0 (fun _ _ => none)) = -1 :=
  C10_index_safety 16 mW pW 0 (fun _ _ => none) (by norm_num)
    (by intro dd; norm_num [mW]) (by decide)

end EmbreeSpatial
